import Mathlib

/-!
Verification of the QuestTube asset-cleanup core: the border-seeded
flood-fill cleaner (`clean_image` from `extension/assets/clean_assets.py`)
and the circular alpha-mask compositor (`circular_crop` from
`extension/assets/force_crop.py`).

The pixel grid is embedded as a function from integer coordinates to RGBA
pixels together with its dimensions; out-of-bounds reads are modelled by
`Option` (a Python `load()` access outside the image raises).  The Python
`math.sqrt`-based distance comparisons are embedded square-free:
for a nonnegative squared distance `d` and a rational threshold `t`,
`sqrt d <= t` iff `0 <= t ∧ d <= t^2`, and `sqrt d < t` iff
`0 < t ∧ d < t^2`, so all comparisons stay inside `ℚ` and are decidable.
The unbounded Python `while queue:` loop is embedded with explicit fuel
returning `Option`; `floodFuel` is proved sufficient for every in-bounds
start, so the embedding is total exactly where the Python loop terminates.
-/

/-- RGBA pixel: four 8-bit channels as naturals; alpha 0 is transparent. -/
structure Pixel where
  r : ℕ
  g : ℕ
  b : ℕ
  a : ℕ
deriving DecidableEq, Repr

/-- Value written by the cleaner when it clears a pixel: Python
`pixels[x, y] = (0, 0, 0, 0)`. -/
def transparentPixel : Pixel := ⟨0, 0, 0, 0⟩

/-- In-memory image: dimensions plus a total pixel map; only coordinates in
`[0, width) × [0, height)` are meaningful, and the algorithms below guard
every access with exactly the bound checks the Python source performs. -/
structure Grid where
  width : ℤ
  height : ℤ
  pix : ℤ → ℤ → Pixel

/-- Coordinate lies inside the image rectangle. -/
def Grid.inBounds (g : Grid) (p : ℤ × ℤ) : Prop :=
  0 ≤ p.1 ∧ p.1 < g.width ∧ 0 ≤ p.2 ∧ p.2 < g.height

instance (g : Grid) (p : ℤ × ℤ) : Decidable (g.inBounds p) := by
  unfold Grid.inBounds; infer_instance

/-- Bounds-checked read, modelling `pixels[x, y]` (raises when outside). -/
def Grid.get? (g : Grid) (x y : ℤ) : Option Pixel :=
  if 0 ≤ x ∧ x < g.width ∧ 0 ≤ y ∧ y < g.height then some (g.pix x y) else none

/-- Pointwise write, modelling `pixels[x, y] = p` (only ever used at a
coordinate that was just successfully read). -/
def Grid.set (g : Grid) (x y : ℤ) (p : Pixel) : Grid :=
  { g with pix := fun u v => if u = x ∧ v = y then p else g.pix u v }

/-- Squared Euclidean RGB distance between two pixels, alpha ignored;
`get_distance` in the source is the (real) square root of this integer. -/
def distSq (c1 c2 : Pixel) : ℤ :=
  ((c1.r : ℤ) - c2.r) ^ 2 + ((c1.g : ℤ) - c2.g) ^ 2 + ((c1.b : ℤ) - c2.b) ^ 2

/-- Square-free embedding of `get_distance(c1, c2) <= t` for a rational
tolerance `t`: `sqrt d <= t` iff `0 <= t` and `d <= t^2`, and the latter is
cross-multiplied to `d * t.den^2 <= t.num^2` so that everything stays in
integer arithmetic (`distLE_iff_rat` below proves the equivalence). -/
def distLE (c1 c2 : Pixel) (t : ℚ) : Prop :=
  0 ≤ t ∧ distSq c1 c2 * (t.den : ℤ) ^ 2 ≤ t.num ^ 2

instance (c1 c2 : Pixel) (t : ℚ) : Decidable (distLE c1 c2 t) := by
  unfold distLE; infer_instance

/-- Background-color hint: an RGB triple, as passed in `bg_hints`. -/
def Hint : Type := ℕ × ℕ × ℕ

/-- Squared Euclidean distance between a pixel's RGB and a hint triple. -/
def distSqHint (c : Pixel) (hint : Hint) : ℤ :=
  ((c.r : ℤ) - hint.1) ^ 2 + ((c.g : ℤ) - hint.2.1) ^ 2 + ((c.b : ℤ) - hint.2.2) ^ 2

/-- Square-free embedding of `get_distance(color, hint) < tolerance`:
`sqrt d < t` iff `0 < t` and `d < t^2`, cross-multiplied as in `distLE`. -/
def distLTHint (c : Pixel) (hint : Hint) (t : ℚ) : Prop :=
  0 < t ∧ distSqHint c hint * (t.den : ℤ) ^ 2 < t.num ^ 2

instance (c : Pixel) (hint : Hint) (t : ℚ) : Decidable (distLTHint c hint t) := by
  unfold distLTHint; infer_instance

/-- Mutable state threaded through one `clean_image` call: the image being
mutated in place, the `visited` set and the `to_clear` set. -/
structure CState where
  grid : Grid
  visited : Finset (ℤ × ℤ)
  to_clear : Finset (ℤ × ℤ)

/-- Offsets `[(-1, 0), (1, 0), (0, -1), (0, 1)]` from the source. -/
def neighborOffsets : List (ℤ × ℤ) := [(-1, 0), (1, 0), (0, -1), (0, 1)]

/-- The 4-connected neighbours of `(x, y)` that pass the source's
`0 <= nx < width and 0 <= ny < height` check, in enqueue order. -/
def inBoundsNeighbors (w h x y : ℤ) : List (ℤ × ℤ) :=
  neighborOffsets.filterMap fun d =>
    if 0 ≤ x + d.1 ∧ x + d.1 < w ∧ 0 ≤ y + d.2 ∧ y + d.2 < h then
      some (x + d.1, y + d.2)
    else none

/-- The `while queue:` loop of `clean_image`: FIFO dequeue, skip if visited,
mark visited, compare the current pixel against the seed's `start_color`,
and on success record the pixel in `to_clear`, blank it to `(0,0,0,0)` and
enqueue its in-bounds neighbours.  Fuel models the unbounded loop; `none`
means the fuel ran out or a read escaped the image. -/
def floodFill (start_color : Pixel) (t : ℚ) :
    ℕ → List (ℤ × ℤ) → CState → Option CState
  | _, [], s => some s
  | 0, _ :: _, _ => none
  | fuel + 1, p :: queue, s =>
    if p ∈ s.visited then floodFill start_color t fuel queue s
    else
      let s1 : CState := { s with visited := insert p s.visited }
      match s1.grid.get? p.1 p.2 with
      | none => none
      | some c =>
        if distLE c start_color t then
          let s2 : CState :=
            { s1 with
              to_clear := insert p s1.to_clear
              grid := s1.grid.set p.1 p.2 transparentPixel }
          floodFill start_color t fuel
            (queue ++ inBoundsNeighbors s2.grid.width s2.grid.height p.1 p.2) s2
        else floodFill start_color t fuel queue s1

/-- Fuel that always suffices for one flood fill (proved below): every loop
iteration either shortens the queue or newly visits an in-bounds pixel. -/
def floodFuel (g : Grid) : ℕ := 5 * (g.width.toNat * g.height.toNat) + 1

/-- Processing of one border coordinate from the seed loop of
`clean_image`: skip if visited, read the pixel, skip if its alpha is 0,
compute the hint match `is_bg`, overwrite it with `True` exactly as the
source does, and flood fill from the seed with its own colour. -/
def seedStep (bg_hints : List Hint) (t : ℚ) (s : CState) (b : ℤ × ℤ) :
    Option CState :=
  if b ∈ s.visited then some s
  else
    match s.grid.get? b.1 b.2 with
    | none => none
    | some color =>
      if color.a = 0 then some s
      else
        let is_bg := bg_hints.any fun hint => decide (distLTHint color hint t)
        let is_bg := true
        if is_bg then floodFill color t (floodFuel s.grid) [b] s
        else some s

/-- Fold of `seedStep` over the border coordinate list. -/
def cleanLoop (bg_hints : List Hint) (t : ℚ) :
    List (ℤ × ℤ) → CState → Option CState
  | [], s => some s
  | b :: bs, s =>
    match seedStep bg_hints t s b with
    | none => none
    | some s1 => cleanLoop bg_hints t bs s1

/-- Border coordinates in the exact enumeration order of the source: first
`(x, 0), (x, height-1)` for each `x`, then `(0, y), (width-1, y)` for each
`y` (corners are therefore enumerated twice). -/
def borderPixels (w h : ℤ) : List (ℤ × ℤ) :=
  ((List.range w.toNat).flatMap fun x => [((x : ℤ), 0), ((x : ℤ), h - 1)]) ++
  ((List.range h.toNat).flatMap fun y => [(0, (y : ℤ)), (w - 1, (y : ℤ))])

/-- The algorithmic core of `clean_image` (file I/O stripped): run the seed
loop over all border pixels starting from empty `visited`/`to_clear`, and
return the mutated image together with `len(to_clear)`. -/
def clean_image (g : Grid) (bg_hints : List Hint) (t : ℚ) :
    Option (Grid × ℕ) :=
  (cleanLoop bg_hints t (borderPixels g.width g.height)
      ⟨g, ∅, ∅⟩).map fun s => (s.grid, s.to_clear.card)

/-- The image produced by `clean_image` (the input image if the run failed,
which the totality theorem rules out for well-formed inputs). -/
def cleanGrid (g : Grid) (bg_hints : List Hint) (t : ℚ) : Grid :=
  ((clean_image g bg_hints t).getD (g, 0)).1

/-- The cleared-pixel count reported by `clean_image`. -/
def clearedCount (g : Grid) (bg_hints : List Hint) (t : ℚ) : ℕ :=
  ((clean_image g bg_hints t).getD (g, 0)).2

/-- Mask radius of `circular_crop`: `min(width, height) / 2 - 2`
(Python true division, hence rational). -/
def cropRadius (w h : ℤ) : ℚ := (min w h : ℚ) / 2 - 2

/-- Mask centre x-coordinate `width / 2`. -/
def cropCenterX (w : ℤ) : ℚ := (w : ℚ) / 2

/-- Mask centre y-coordinate `height / 2`. -/
def cropCenterY (h : ℤ) : ℚ := (h : ℚ) / 2

/-- Squared distance from pixel coordinate `(x, y)` to the mask centre. -/
def centerDistSq (w h : ℤ) (x y : ℤ) : ℚ :=
  ((x : ℚ) - cropCenterX w) ^ 2 + ((y : ℚ) - cropCenterY h) ^ 2

/-- Membership of pixel `(x, y)` in the 255-region of the elliptical mask
drawn by `draw.ellipse`, idealised as the closed Euclidean disk of radius
`cropRadius` about the centre; a negative radius yields the empty disk.
Stated in integer arithmetic (multiply the disk inequality through by 4);
`insideCrop_iff_disk` below proves it equal to the rational disk. -/
def insideCrop (w h : ℤ) (x y : ℤ) : Prop :=
  4 ≤ min w h ∧ (2 * x - w) ^ 2 + (2 * y - h) ^ 2 ≤ (min w h - 4) ^ 2

instance (w h x y : ℤ) : Decidable (insideCrop w h x y) := by
  unfold insideCrop; infer_instance

/-- The algorithmic core of `circular_crop` (file I/O stripped): paste the
source image through the elliptical mask onto a fully transparent canvas of
the same dimensions; the input grid is not mutated. -/
def circular_crop (g : Grid) : Grid :=
  { width := g.width
    height := g.height
    pix := fun x y =>
      if insideCrop g.width g.height x y then g.pix x y else transparentPixel }

/-- One step of the declarative background region: from a pixel already in
the region, any in-bounds 4-neighbour whose original colour is within
tolerance of the seed's original colour joins the region. -/
inductive Reach (g : Grid) (t : ℚ) (c : Pixel) (b : ℤ × ℤ) : ℤ × ℤ → Prop
  | seed : g.inBounds b → distLE (g.pix b.1 b.2) c t → Reach g t c b b
  | step (p q : ℤ × ℤ) : Reach g t c b p →
      q ∈ inBoundsNeighbors g.width g.height p.1 p.2 →
      distLE (g.pix q.1 q.2) c t → Reach g t c b q

/-- Pixel belongs to the union, over all non-transparent border pixels `b`,
of the 4-connected region reachable from `b` through pixels within
tolerance of `b`'s original colour — the declarative cleared set of the
specification. -/
def borderSeedReach (g : Grid) (t : ℚ) (p : ℤ × ℤ) : Prop :=
  ∃ b ∈ borderPixels g.width g.height,
    (g.pix b.1 b.2).a ≠ 0 ∧ Reach g t (g.pix b.1 b.2) b p

/-- All in-bounds coordinates of a `w` by `h` image, as a finite set. -/
def boundsFinset (w h : ℤ) : Finset (ℤ × ℤ) :=
  Finset.Ico 0 w ×ˢ Finset.Ico 0 h

/-- Number of pixels whose alpha went from non-zero to zero between the
input image and the output image. -/
def alphaTransitions (g0 g1 : Grid) : ℕ :=
  ((boundsFinset g0.width g0.height).filter fun p =>
    (g0.pix p.1 p.2).a ≠ 0 ∧ (g1.pix p.1 p.2).a = 0).card

/-- Invariant maintained by the cleaner across every seed and every flood
fill step, relative to the original image `g0` and tolerance `t`: the
dimensions never change; pixels outside `to_clear` still hold their
original bytes; pixels in `to_clear` have been blanked to `(0,0,0,0)` and
lie in the declarative background region of some non-transparent border
seed; and `to_clear` only contains dequeued (visited) coordinates. -/
structure StInv (g0 : Grid) (t : ℚ) (s : CState) : Prop where
  wEq : s.grid.width = g0.width
  hEq : s.grid.height = g0.height
  unchanged : ∀ p : ℤ × ℤ, p ∉ s.to_clear → s.grid.pix p.1 p.2 = g0.pix p.1 p.2
  cleared : ∀ p ∈ s.to_clear,
    s.grid.pix p.1 p.2 = transparentPixel ∧ borderSeedReach g0 t p
  sub : s.to_clear ⊆ s.visited

/-- Concrete 2x1 image: white opaque pixel at `(0,0)`, black opaque pixel
at `(1,0)`. -/
def gridWB : Grid :=
  ⟨2, 1, fun x _ => if x = 0 then ⟨255, 255, 255, 255⟩ else ⟨0, 0, 0, 255⟩⟩

/-- Concrete 1x2 image: white opaque pixel at `(0,0)`, white but fully
transparent pixel at `(0,1)`. -/
def gridWT : Grid :=
  ⟨1, 2, fun _ y => if y = 0 then ⟨255, 255, 255, 255⟩ else ⟨255, 255, 255, 0⟩⟩

/-- Concrete 1x1 image: a single white opaque pixel. -/
def gridW1 : Grid := ⟨1, 1, fun _ _ => ⟨255, 255, 255, 255⟩⟩

/-- Concrete 20x20 image with constant opaque colour, matching the spec's
scenario for the circular crop (radius 8, centre (10,10)). -/
def gridC20 : Grid := ⟨20, 20, fun _ _ => ⟨7, 8, 9, 255⟩⟩

/-- Concrete 20x20 image with a different constant colour, used to witness
that the crop mask depends only on the dimensions. -/
def gridC20b : Grid := ⟨20, 20, fun _ _ => ⟨200, 100, 50, 3⟩⟩

/-- Concrete state at the start of a `clean_image` run on `gridWB`. -/
def stateWB : CState := ⟨gridWB, ∅, ∅⟩

/-- The cross-multiplied comparison in `distLE` means exactly
`(distSq : ℚ) <= t ^ 2`, i.e. `get_distance <= t` for the real distance. -/
theorem distLE_iff_rat (c1 c2 : Pixel) (t : ℚ) :
    distLE c1 c2 t ↔ 0 ≤ t ∧ (distSq c1 c2 : ℚ) ≤ t ^ 2 := by
  unfold distLE
  refine and_congr_right fun _ => ?_
  rw [show (t : ℚ) ^ 2 = (t.num : ℚ) ^ 2 / (t.den : ℚ) ^ 2 by
        rw [← div_pow, Rat.num_div_den],
      le_div_iff₀ (by positivity)]
  exact_mod_cast Iff.rfl

/-- The integer form of `insideCrop` is the closed disk of radius
`cropRadius` about `(cropCenterX, cropCenterY)` in rational arithmetic. -/
theorem insideCrop_iff_disk (w h x y : ℤ) :
    insideCrop w h x y ↔
      0 ≤ cropRadius w h ∧ centerDistSq w h x y ≤ cropRadius w h ^ 2 := by
  unfold insideCrop cropRadius centerDistSq cropCenterX cropCenterY
  constructor
  · rintro ⟨h4, hd⟩
    have h4q : (4 : ℚ) ≤ min (w : ℚ) (h : ℚ) := by
      have h4c : ((4 : ℤ) : ℚ) ≤ ((min w h : ℤ) : ℚ) := Int.cast_le.2 h4
      push_cast at h4c
      linarith
    have hdq : ((2 * x - w : ℤ) : ℚ) ^ 2 + ((2 * y - h : ℤ) : ℚ) ^ 2 ≤
        ((min w h - 4 : ℤ) : ℚ) ^ 2 := by exact_mod_cast hd
    push_cast at hdq
    refine ⟨by linarith, ?_⟩
    have goal4 : 4 * (((x : ℚ) - (w : ℚ) / 2) ^ 2 + ((y : ℚ) - (h : ℚ) / 2) ^ 2) ≤
        4 * (min (w : ℚ) (h : ℚ) / 2 - 2) ^ 2 := by
      calc 4 * (((x : ℚ) - (w : ℚ) / 2) ^ 2 + ((y : ℚ) - (h : ℚ) / 2) ^ 2)
          = (2 * (x : ℚ) - w) ^ 2 + (2 * (y : ℚ) - h) ^ 2 := by ring
        _ ≤ (min (w : ℚ) (h : ℚ) - 4) ^ 2 := hdq
        _ = 4 * (min (w : ℚ) (h : ℚ) / 2 - 2) ^ 2 := by ring
    linarith
  · rintro ⟨hr, hd⟩
    have h4q : (4 : ℚ) ≤ min (w : ℚ) (h : ℚ) := by linarith
    have key : ((2 * x - w : ℤ) : ℚ) ^ 2 + ((2 * y - h : ℤ) : ℚ) ^ 2 ≤
        ((min w h - 4 : ℤ) : ℚ) ^ 2 := by
      push_cast
      calc (2 * (x : ℚ) - w) ^ 2 + (2 * (y : ℚ) - h) ^ 2
          = 4 * (((x : ℚ) - (w : ℚ) / 2) ^ 2 + ((y : ℚ) - (h : ℚ) / 2) ^ 2) := by ring
        _ ≤ 4 * (min (w : ℚ) (h : ℚ) / 2 - 2) ^ 2 := by linarith
        _ = (min (w : ℚ) (h : ℚ) - 4) ^ 2 := by ring
    constructor
    · exact_mod_cast h4q
    · exact_mod_cast key


/-- C2: a border pixel already in the visited set is skipped; a border
pixel whose stored alpha is 0 is skipped as a seed; and every other border
pixel is treated as a background seed unconditionally — the flood fill is
started from it irrespective of the hint list (the hint-distance result is
overridden by `is_bg = True` in the source). -/
theorem seedStep_policy (bg_hints : List Hint) (t : ℚ) (s : CState) (b : ℤ × ℤ) :
    (b ∈ s.visited → seedStep bg_hints t s b = some s) ∧
    (b ∉ s.visited → ∀ c : Pixel, s.grid.get? b.1 b.2 = some c → c.a = 0 →
      seedStep bg_hints t s b = some s) ∧
    (b ∉ s.visited → ∀ c : Pixel, s.grid.get? b.1 b.2 = some c → c.a ≠ 0 →
      seedStep bg_hints t s b = floodFill c t (floodFuel s.grid) [b] s) := by
  refine ⟨fun hv => ?_, fun hv c hc ha => ?_, fun hv c hc ha => ?_⟩
  · unfold seedStep
    rw [if_pos hv]
  · unfold seedStep
    rw [if_neg hv, hc]
    simp [ha]
  · unfold seedStep
    rw [if_neg hv, hc]
    simp [ha]

/-- Witness for C2 at a concrete state: the border pixel `(0,0)` of the
white/black 2x1 image is unvisited and opaque, so the seed step is exactly
a flood fill from it, even with an empty hint list. -/
theorem seedStep_policy_witness :
    seedStep [] 30 stateWB (0, 0) =
      floodFill ⟨255, 255, 255, 255⟩ 30 (floodFuel stateWB.grid) [(0, 0)] stateWB :=
  (seedStep_policy [] 30 stateWB (0, 0)).2.2 (by decide)
    ⟨255, 255, 255, 255⟩ (by decide) (by decide)

/-- C10: the result of `clean_image` — mutated image and cleared count —
does not depend on the hint list: the hint-distance check in the source is
computed but immediately overridden, and propagation uses only the seed's
own colour and the tolerance. -/
theorem clean_image_hint_independent (g : Grid) (t : ℚ) (h1 h2 : List Hint) :
    clean_image g h1 t = clean_image g h2 t := by
  have hseed : ∀ s b, seedStep h1 t s b = seedStep h2 t s b := fun s b => rfl
  have hloop : ∀ bs s, cleanLoop h1 t bs s = cleanLoop h2 t bs s := by
    intro bs
    induction bs with
    | nil => intro s; rfl
    | cons b bs ih =>
      intro s
      unfold cleanLoop
      rw [hseed s b]
      cases seedStep h2 t s b with
      | none => rfl
      | some s1 => exact ih s1
  unfold clean_image
  rw [hloop]

/-- C6: in the output of `circular_crop`, every pixel strictly farther than
`cropRadius` from the image centre (in particular every pixel when the
radius is negative) has alpha 0, and every pixel strictly closer than
`cropRadius` is byte-identical to the corresponding source pixel. -/
theorem circular_crop_spec (g : Grid) (x y : ℤ) :
    ((cropRadius g.width g.height < 0 ∨
        cropRadius g.width g.height ^ 2 < centerDistSq g.width g.height x y) →
      ((circular_crop g).pix x y).a = 0) ∧
    ((0 ≤ cropRadius g.width g.height ∧
        centerDistSq g.width g.height x y < cropRadius g.width g.height ^ 2) →
      (circular_crop g).pix x y = g.pix x y) := by
  constructor
  · intro hgt
    show (if insideCrop g.width g.height x y then g.pix x y else transparentPixel).a = 0
    rw [if_neg]
    · rfl
    · intro hin
      rw [insideCrop_iff_disk] at hin
      rcases hgt with hneg | hfar
      · linarith [hin.1]
      · linarith [hin.2]
  · rintro ⟨hr, hlt⟩
    show (if insideCrop g.width g.height x y then g.pix x y else transparentPixel) = g.pix x y
    rw [if_pos]
    rw [insideCrop_iff_disk]
    exact ⟨hr, le_of_lt hlt⟩

/-- Witness for C6 on the 20x20 constant image (radius 8, centre (10,10)):
pixel (19,10) is at distance 9 > 8 and comes out transparent; pixel
(10,10) is at distance 0 < 8 and is untouched. -/
theorem circular_crop_spec_witness :
    ((circular_crop gridC20).pix 19 10).a = 0 ∧
      (circular_crop gridC20).pix 10 10 = gridC20.pix 10 10 :=
  ⟨(circular_crop_spec gridC20 19 10).1
      (Or.inr (by norm_num [gridC20, cropRadius, centerDistSq, cropCenterX, cropCenterY])),
    (circular_crop_spec gridC20 10 10).2
      (by norm_num [gridC20, cropRadius, centerDistSq, cropCenterX, cropCenterY])⟩

/-- C7: `circular_crop` is idempotent — applying it to its own output
(whose dimensions are unchanged, so the mask geometry is the same) returns
that output unchanged: pixels outside the circle stay fully transparent
and pixels inside keep their colour and alpha. -/
theorem circular_crop_idempotent (g : Grid) :
    circular_crop (circular_crop g) = circular_crop g := by
  have hp : ∀ x y : ℤ,
      (circular_crop (circular_crop g)).pix x y = (circular_crop g).pix x y := by
    intro x y
    show (if insideCrop g.width g.height x y
            then (circular_crop g).pix x y else transparentPixel) =
          (circular_crop g).pix x y
    by_cases hin : insideCrop g.width g.height x y
    · rw [if_pos hin]
    · rw [if_neg hin]
      show transparentPixel =
        if insideCrop g.width g.height x y then g.pix x y else transparentPixel
      rw [if_neg hin]
  exact congrArg (Grid.mk g.width g.height) (funext fun x => funext fun y => hp x y)

/-- C8: the mask geometry of `circular_crop` is the radius
`min(W,H)/2 - 2` disk centred at `(W/2, H/2)`, and it is a pure function
of the dimensions alone: two images of equal dimensions get the identical
mask region, and the output pixel at any coordinate depends only on the
dimensions and the source pixel at that same coordinate. -/
theorem circular_crop_mask_pure (w h : ℤ) :
    cropRadius w h = (min w h : ℚ) / 2 - 2 ∧
    cropCenterX w = (w : ℚ) / 2 ∧
    cropCenterY h = (h : ℚ) / 2 ∧
    (∀ g1 g2 : Grid, g1.width = g2.width → g1.height = g2.height →
      ∀ x y : ℤ,
        (insideCrop g1.width g1.height x y ↔ insideCrop g2.width g2.height x y) ∧
        (g1.pix x y = g2.pix x y →
          (circular_crop g1).pix x y = (circular_crop g2).pix x y)) := by
  refine ⟨rfl, rfl, rfl, fun g1 g2 hw hh x y => ⟨by rw [hw, hh], fun hp => ?_⟩⟩
  show (if insideCrop g1.width g1.height x y then g1.pix x y else transparentPixel) =
    (if insideCrop g2.width g2.height x y then g2.pix x y else transparentPixel)
  rw [hw, hh, hp]

/-- Witness for C8: two 20x20 images with entirely different pixel
contents have the same mask region at a sample coordinate and identical
crop output where their pixels agree. -/
theorem circular_crop_mask_pure_witness :
    (insideCrop gridC20.width gridC20.height 3 4 ↔
      insideCrop gridC20b.width gridC20b.height 3 4) ∧
    cropRadius 20 20 = (min 20 20 : ℚ) / 2 - 2 :=
  ⟨((circular_crop_mask_pure 20 20).2.2.2 gridC20 gridC20b rfl rfl 3 4).1,
    (circular_crop_mask_pure 20 20).1⟩

/-- Counterexample to C1 as stated: in the 2x1 white/black image with
tolerance 30, the border pixel `(1,0)` is opaque and lies in the declared
set (it is reachable from itself as a border seed, at distance 0 from its
own colour), yet `clean_image` leaves it byte-identical with alpha 255 and
reports only 1 cleared pixel: the white seed's traversal visited `(1,0)`
over-tolerance first, so the seed loop skips it and its region is never
cleared.  Hence the cleared set is not *exactly* the union of the
reachable regions. -/
theorem clean_image_exact_region_cex :
    borderSeedReach gridWB 30 (1, 0) ∧
    (gridWB.pix 1 0).a ≠ 0 ∧
    (clean_image gridWB [] 30).map (fun r => (r.1.pix 1 0, r.2)) =
      some ((⟨0, 0, 0, 255⟩ : Pixel), 1) :=
  ⟨⟨(1, 0), by decide, by decide, Reach.seed (by decide) (by decide)⟩,
    by decide, by decide⟩

/-- Counterexample to C3 as stated: in the 1x2 image whose second pixel is
white with alpha already 0 (tolerance 30), exactly one pixel's alpha
transitions from non-zero to zero, but the reported cleared count is 2:
the already-transparent pixel passes the tolerance test when reached and
is counted in `to_clear`. -/
theorem cleared_count_transitions_cex :
    (clean_image gridWT [] 30).map (fun r => (alphaTransitions gridWT r.1, r.2)) =
      some (1, 2) := by decide

/-- Counterexample to C4 as stated: `clean_image` is not idempotent.  On
the 2x1 white/black image with tolerance 0 the first run clears only the
white pixel (count 1) and leaves the black border pixel opaque; rerunning
with identical arguments on that output clears 2 further pixels — the
surviving black border pixel becomes a fresh seed (the visited set is not
carried over), and the blanked `(0,0,0,0)` neighbour now matches its
colour — so the second run changes pixels and reports 2, not 0. -/
theorem clean_image_idempotent_cex :
    clearedCount gridWB [] 0 = 1 ∧
    (cleanGrid gridWB [] 0).pix 1 0 = (⟨0, 0, 0, 255⟩ : Pixel) ∧
    clearedCount (cleanGrid gridWB [] 0) [] 0 = 2 ∧
    (cleanGrid (cleanGrid gridWB [] 0) [] 0).pix 1 0 = (⟨0, 0, 0, 0⟩ : Pixel) := by
  decide

/-- Counterexample to C5 as stated: clearing writes `(0, 0, 0, 0)`, wiping
the colour channels too.  The single white pixel of the 1x1 image passes
the tolerance test and afterwards has r = g = b = 0, not its original
r = g = b = 255. -/
theorem clear_rgb_preserved_cex :
    gridW1.pix 0 0 = (⟨255, 255, 255, 255⟩ : Pixel) ∧
    (cleanGrid gridW1 [] 0).pix 0 0 = (⟨0, 0, 0, 0⟩ : Pixel) ∧
    clearedCount gridW1 [] 0 = 1 := by decide

/-- Stepping lemma: a visited border pixel leaves the state unchanged. -/
theorem seedStep_visited {bg_hints : List Hint} {t : ℚ} {s : CState} {b : ℤ × ℤ}
    (hv : b ∈ s.visited) : seedStep bg_hints t s b = some s := by
  unfold seedStep
  rw [if_pos hv]

/-- Stepping lemma: an unvisited border pixel with alpha 0 leaves the
state unchanged. -/
theorem seedStep_alpha0 {bg_hints : List Hint} {t : ℚ} {s : CState} {b : ℤ × ℤ}
    {c : Pixel} (hv : b ∉ s.visited) (hc : s.grid.get? b.1 b.2 = some c)
    (ha : c.a = 0) : seedStep bg_hints t s b = some s := by
  unfold seedStep
  rw [if_neg hv, hc]
  simp [ha]

/-- Stepping lemma: an unvisited border pixel with non-zero alpha starts a
flood fill from itself with its own colour, whatever the hints say. -/
theorem seedStep_flood {bg_hints : List Hint} {t : ℚ} {s : CState} {b : ℤ × ℤ}
    {c : Pixel} (hv : b ∉ s.visited) (hc : s.grid.get? b.1 b.2 = some c)
    (ha : c.a ≠ 0) :
    seedStep bg_hints t s b = floodFill c t (floodFuel s.grid) [b] s := by
  unfold seedStep
  rw [if_neg hv, hc]
  simp [ha]

/-- A successful bounds-checked read means the coordinate is in bounds and
the value is the stored pixel. -/
theorem Grid.get_eq_of_inBounds {g : Grid} {p : ℤ × ℤ} (hp : g.inBounds p) :
    g.get? p.1 p.2 = some (g.pix p.1 p.2) := by
  unfold Grid.get? Grid.inBounds at *
  rw [if_pos hp]

/-- Every coordinate produced by the neighbour enumeration passes the
bound checks. -/
theorem inBoundsNeighbors_bounds {w h x y : ℤ} {q : ℤ × ℤ}
    (hq : q ∈ inBoundsNeighbors w h x y) :
    0 ≤ q.1 ∧ q.1 < w ∧ 0 ≤ q.2 ∧ q.2 < h := by
  unfold inBoundsNeighbors at hq
  rcases List.mem_filterMap.1 hq with ⟨d, _, hd⟩
  by_cases hcond : 0 ≤ x + d.1 ∧ x + d.1 < w ∧ 0 ≤ y + d.2 ∧ y + d.2 < h
  · rw [if_pos hcond] at hd
    cases hd
    exact hcond
  · rw [if_neg hcond] at hd
    cases hd

/-- At most four neighbours are ever enqueued per cleared pixel. -/
theorem inBoundsNeighbors_length (w h x y : ℤ) :
    (inBoundsNeighbors w h x y).length ≤ 4 :=
  le_trans (List.length_filterMap_le _ _) (by rfl)

/-- Membership in `boundsFinset` is exactly the bound check. -/
theorem mem_boundsFinset {w h : ℤ} {p : ℤ × ℤ} :
    p ∈ boundsFinset w h ↔ 0 ≤ p.1 ∧ p.1 < w ∧ 0 ≤ p.2 ∧ p.2 < h := by
  unfold boundsFinset
  rw [Finset.mem_product, Finset.mem_Ico, Finset.mem_Ico]
  tauto

/-- The image rectangle has `w * h` coordinates. -/
theorem card_boundsFinset (w h : ℤ) :
    (boundsFinset w h).card = w.toNat * h.toNat := by
  unfold boundsFinset
  rw [Finset.card_product, Int.card_Ico, Int.card_Ico, sub_zero, sub_zero]

/-- Every enumerated border coordinate of a non-degenerate image is in
bounds. -/
theorem mem_borderPixels_inBounds {w h : ℤ} {b : ℤ × ℤ}
    (hw : 1 ≤ w) (hh : 1 ≤ h) (hb : b ∈ borderPixels w h) :
    0 ≤ b.1 ∧ b.1 < w ∧ 0 ≤ b.2 ∧ b.2 < h := by
  unfold borderPixels at hb
  rcases List.mem_append.1 hb with hx | hy
  · rcases List.mem_flatMap.1 hx with ⟨x, hxr, hxm⟩
    rw [List.mem_range] at hxr
    have hxw : (x : ℤ) < w := by omega
    rcases List.mem_cons.1 hxm with hb1 | hb2
    · subst hb1; exact ⟨by omega, hxw, by omega, by omega⟩
    · rcases List.mem_cons.1 hb2 with hb1 | hb3
      · subst hb1; exact ⟨by omega, hxw, by omega, by omega⟩
      · cases hb3
  · rcases List.mem_flatMap.1 hy with ⟨y, hyr, hym⟩
    rw [List.mem_range] at hyr
    have hyh : (y : ℤ) < h := by omega
    rcases List.mem_cons.1 hym with hb1 | hb2
    · subst hb1; exact ⟨by omega, by omega, by omega, hyh⟩
    · rcases List.mem_cons.1 hb2 with hb1 | hb3
      · subst hb1; exact ⟨by omega, by omega, by omega, hyh⟩
      · cases hb3

/-- Writing a pixel does not change the image width. -/
theorem Grid.set_width (g : Grid) (x y : ℤ) (p : Pixel) :
    (g.set x y p).width = g.width := rfl

/-- Writing a pixel does not change the image height. -/
theorem Grid.set_height (g : Grid) (x y : ℤ) (p : Pixel) :
    (g.set x y p).height = g.height := rfl

/-- Reading back the coordinate just written returns the written pixel. -/
theorem Grid.set_pix_eq (g : Grid) (x y : ℤ) (p : Pixel) :
    (g.set x y p).pix x y = p := by
  unfold Grid.set
  exact if_pos ⟨rfl, rfl⟩

/-- Reading any other coordinate is unaffected by a write. -/
theorem Grid.set_pix_ne (g : Grid) (x y : ℤ) (p : Pixel) {u v : ℤ}
    (h : ¬(u = x ∧ v = y)) : (g.set x y p).pix u v = g.pix u v := by
  unfold Grid.set
  exact if_neg h

/-- Under the invariant, the working image has the same bound checks as
the original image. -/
theorem StInv.inBounds_iff {g0 : Grid} {t : ℚ} {s : CState} (hs : StInv g0 t s)
    (p : ℤ × ℤ) : s.grid.inBounds p ↔ g0.inBounds p := by
  unfold Grid.inBounds
  rw [hs.wEq, hs.hEq]

/-- Central flood-fill lemma: from a state satisfying the invariant, with
every queued coordinate in bounds and justified (the seed itself, or an
in-bounds neighbour of an already-cleared pixel reachable from the seed),
a flood fill whose fuel dominates `queue.length + 5 * #unvisited-in-bounds`
completes and preserves the invariant. -/
theorem floodFill_inv (g0 : Grid) (t : ℚ) (b : ℤ × ℤ) (c : Pixel)
    (hbmem : b ∈ borderPixels g0.width g0.height)
    (hbcol : c = g0.pix b.1 b.2) (hba : (g0.pix b.1 b.2).a ≠ 0) :
    ∀ fuel : ℕ, ∀ queue : List (ℤ × ℤ), ∀ s : CState,
      StInv g0 t s →
      (∀ p ∈ queue, g0.inBounds p) →
      (∀ p ∈ queue, p = b ∨ ∃ q ∈ s.to_clear,
        p ∈ inBoundsNeighbors g0.width g0.height q.1 q.2 ∧ Reach g0 t c b q) →
      queue.length + 5 * ((boundsFinset g0.width g0.height) \ s.visited).card ≤ fuel →
      ∃ s', floodFill c t fuel queue s = some s' ∧ StInv g0 t s' := by
  intro fuel
  induction fuel with
  | zero =>
    intro queue s hs hq1 hq2 hfuel
    cases queue with
    | nil => exact ⟨s, rfl, hs⟩
    | cons p q =>
      exfalso
      simp only [List.length_cons] at hfuel
      omega
  | succ fuel ih =>
    intro queue s hs hq1 hq2 hfuel
    cases queue with
    | nil => exact ⟨s, rfl, hs⟩
    | cons p q =>
      simp only [List.length_cons] at hfuel
      have hq1q : ∀ r ∈ q, g0.inBounds r :=
        fun r hr => hq1 r (List.mem_cons_of_mem _ hr)
      by_cases hv : p ∈ s.visited
      · simp only [floodFill, if_pos hv]
        refine ih q s hs hq1q
          (fun r hr => hq2 r (List.mem_cons_of_mem _ hr)) (by omega)
      · have hpin : g0.inBounds p := hq1 p (List.mem_cons_self _ _)
        have hptc : p ∉ s.to_clear := fun hmem => hv (hs.sub hmem)
        have hppix : s.grid.pix p.1 p.2 = g0.pix p.1 p.2 := hs.unchanged p hptc
        have hget : s.grid.get? p.1 p.2 = some (g0.pix p.1 p.2) := by
          rw [Grid.get_eq_of_inBounds ((hs.inBounds_iff p).2 hpin), hppix]
        have hpmem : p ∈ boundsFinset g0.width g0.height \ s.visited :=
          Finset.mem_sdiff.2 ⟨mem_boundsFinset.2 hpin, hv⟩
        have hcpos : 0 < ((boundsFinset g0.width g0.height) \ s.visited).card :=
          Finset.card_pos.2 ⟨p, hpmem⟩
        have hcard : ((boundsFinset g0.width g0.height) \ insert p s.visited).card + 1
            = ((boundsFinset g0.width g0.height) \ s.visited).card := by
          rw [Finset.sdiff_insert, Finset.card_erase_of_mem hpmem]
          omega
        by_cases hd : distLE (g0.pix p.1 p.2) c t
        · have hreach : Reach g0 t c b p := by
            rcases hq2 p (List.mem_cons_self _ _) with hpb | ⟨q', _, hnb, hr⟩
            · subst hpb
              exact Reach.seed hpin hd
            · exact Reach.step q' p hr hnb hd
          simp only [floodFill, if_neg hv, hget, if_pos hd,
            Grid.set_width, Grid.set_height, hs.wEq, hs.hEq]
          refine ih (q ++ inBoundsNeighbors g0.width g0.height p.1 p.2)
            ⟨s.grid.set p.1 p.2 transparentPixel,
              insert p s.visited, insert p s.to_clear⟩ ?_ ?_ ?_ ?_
          · refine ⟨(Grid.set_width _ _ _ _).trans hs.wEq,
              (Grid.set_height _ _ _ _).trans hs.hEq, ?_, ?_, ?_⟩
            · intro r hr
              have hrp : r ≠ p := fun h => hr (h ▸ Finset.mem_insert_self _ _)
              have hrtc : r ∉ s.to_clear := fun h => hr (Finset.mem_insert_of_mem h)
              rw [Grid.set_pix_ne _ _ _ _ (fun hc => hrp (Prod.ext hc.1 hc.2))]
              exact hs.unchanged r hrtc
            · intro r hr
              rcases Finset.mem_insert.1 hr with hrp | hrold
              · subst hrp
                exact ⟨Grid.set_pix_eq _ _ _ _, ⟨b, hbmem, hba, hbcol ▸ hreach⟩⟩
              · have hrp : r ≠ p := fun h => hptc (h ▸ hrold)
                refine ⟨?_, (hs.cleared r hrold).2⟩
                rw [Grid.set_pix_ne _ _ _ _ (fun hc => hrp (Prod.ext hc.1 hc.2))]
                exact (hs.cleared r hrold).1
            · exact Finset.insert_subset_insert _ hs.sub
          · intro r hr
            rcases List.mem_append.1 hr with hrq | hrn
            · exact hq1q r hrq
            · exact inBoundsNeighbors_bounds hrn
          · intro r hr
            rcases List.mem_append.1 hr with hrq | hrn
            · rcases hq2 r (List.mem_cons_of_mem _ hrq) with hrb | ⟨q', hq', hnb, hrc⟩
              · exact Or.inl hrb
              · exact Or.inr ⟨q', Finset.mem_insert_of_mem hq', hnb, hrc⟩
            · exact Or.inr ⟨p, Finset.mem_insert_self _ _, hrn, hreach⟩
          · have hnb := inBoundsNeighbors_length g0.width g0.height p.1 p.2
            simp only [List.length_append]
            omega
        · simp only [floodFill, if_neg hv, hget, if_neg hd]
          refine ih q ⟨s.grid, insert p s.visited, s.to_clear⟩
            ⟨hs.wEq, hs.hEq, hs.unchanged, hs.cleared,
              hs.sub.trans (Finset.subset_insert _ _)⟩
            hq1q
            (fun r hr => hq2 r (List.mem_cons_of_mem _ hr))
            (by dsimp only; omega)

/-- Seed-loop lemma: processing any sublist of the border enumeration from
an invariant state completes and preserves the invariant. -/
theorem cleanLoop_inv (g0 : Grid) (t : ℚ) (bg_hints : List Hint)
    (hw : 1 ≤ g0.width) (hh : 1 ≤ g0.height) :
    ∀ bs : List (ℤ × ℤ), (∀ b ∈ bs, b ∈ borderPixels g0.width g0.height) →
      ∀ s : CState, StInv g0 t s →
      ∃ s', cleanLoop bg_hints t bs s = some s' ∧ StInv g0 t s' := by
  intro bs
  induction bs with
  | nil =>
    intro _ s hs
    exact ⟨s, rfl, hs⟩
  | cons b bs ih =>
    intro hbs s hs
    have hbmem : b ∈ borderPixels g0.width g0.height := hbs b (List.mem_cons_self _ _)
    have hbin : g0.inBounds b := mem_borderPixels_inBounds hw hh hbmem
    have hbs2 : ∀ r ∈ bs, r ∈ borderPixels g0.width g0.height :=
      fun r hr => hbs r (List.mem_cons_of_mem _ hr)
    by_cases hv : b ∈ s.visited
    · simp only [cleanLoop, seedStep_visited hv]
      exact ih hbs2 s hs
    · have hbtc : b ∉ s.to_clear := fun h => hv (hs.sub h)
      have hpix : s.grid.pix b.1 b.2 = g0.pix b.1 b.2 := hs.unchanged b hbtc
      have hget : s.grid.get? b.1 b.2 = some (s.grid.pix b.1 b.2) :=
        Grid.get_eq_of_inBounds ((hs.inBounds_iff b).2 hbin)
      by_cases ha : (g0.pix b.1 b.2).a = 0
      · have hstep : seedStep bg_hints t s b = some s :=
          seedStep_alpha0 hv hget (by rw [hpix]; exact ha)
        simp only [cleanLoop, hstep]
        exact ih hbs2 s hs
      · have hstep : seedStep bg_hints t s b =
            floodFill (s.grid.pix b.1 b.2) t (floodFuel s.grid) [b] s :=
          seedStep_flood hv hget (by rw [hpix]; exact ha)
        have hfuel : ([b] : List (ℤ × ℤ)).length +
            5 * ((boundsFinset g0.width g0.height) \ s.visited).card ≤
              floodFuel s.grid := by
          have hsub : ((boundsFinset g0.width g0.height) \ s.visited).card ≤
              (boundsFinset g0.width g0.height).card :=
            Finset.card_le_card (Finset.sdiff_subset)
          rw [card_boundsFinset] at hsub
          unfold floodFuel
          rw [hs.wEq, hs.hEq]
          simp only [List.length_cons, List.length_nil]
          omega
        obtain ⟨s', hff, hs'⟩ :=
          floodFill_inv g0 t b (s.grid.pix b.1 b.2) hbmem hpix ha
            (floodFuel s.grid) [b] s hs
            (by
              intro r hr
              rcases List.mem_cons.1 hr with h1 | h2
              · subst h1; exact hbin
              · cases h2)
            (by
              intro r hr
              rcases List.mem_cons.1 hr with h1 | h2
              · exact Or.inl h1
              · cases h2)
            hfuel
        have hcol : s.grid.pix b.1 b.2 = g0.pix b.1 b.2 := hpix
        simp only [cleanLoop, hstep, hff]
        exact ih hbs2 s' hs'

/-- Master lemma: on a non-degenerate image the whole cleaner run
completes, its final state satisfies the invariant, and `clean_image`
returns that state's image and cleared count. -/
theorem clean_image_inv (g : Grid) (bg_hints : List Hint) (t : ℚ)
    (hw : 1 ≤ g.width) (hh : 1 ≤ g.height) :
    ∃ s', cleanLoop bg_hints t (borderPixels g.width g.height) ⟨g, ∅, ∅⟩ = some s' ∧
      StInv g t s' ∧ clean_image g bg_hints t = some (s'.grid, s'.to_clear.card) := by
  obtain ⟨s', h1, h2⟩ :=
    cleanLoop_inv g t bg_hints hw hh (borderPixels g.width g.height)
      (fun b hb => hb) ⟨g, ∅, ∅⟩
      ⟨rfl, rfl, fun p _ => rfl,
        fun p hp => absurd hp (Finset.not_mem_empty p), Finset.empty_subset _⟩
  refine ⟨s', h1, h2, ?_⟩
  unfold clean_image
  rw [h1]
  rfl

/-- C9: the cleaner core is total on every well-formed image — for any
dimensions at least 1x1 (including the degenerate 1x1 case), any hint list
(including the empty one) and any tolerance (including 0 and negative
values), `clean_image` returns a result: every pixel access passes the
bound check and the flood-fill fuel never runs out.  The masker core
`circular_crop` is a total function of the embedding by construction. -/
theorem clean_image_total (g : Grid) (bg_hints : List Hint) (t : ℚ)
    (hw : 1 ≤ g.width) (hh : 1 ≤ g.height) :
    ∃ g2 n, clean_image g bg_hints t = some (g2, n) := by
  obtain ⟨s', _, _, h3⟩ := clean_image_inv g bg_hints t hw hh
  exact ⟨s'.grid, s'.to_clear.card, h3⟩

/-- Witness for C9: the degenerate 1x1 image with empty hints and
tolerance 0 cleans successfully. -/
theorem clean_image_total_witness : (clean_image gridW1 [] 0).isSome = true := by
  obtain ⟨g2, n, h⟩ := clean_image_total gridW1 [] 0 (by decide) (by decide)
  rw [h]
  rfl

/-- C1 (amended): `clean_image` clears only pixels that are 4-connected-
reachable from some non-transparent border seed through pixels within
tolerance of that seed's original colour — every modified pixel lies in
that union and is blanked to `(0,0,0,0)`, and every pixel outside the
union (unreachable or over-tolerance from every seed) is byte-identical to
its input value.  (The converse inclusion fails: see the counterexample —
a seed visited over-tolerance by an earlier traversal is skipped.) -/
theorem clean_image_region (g : Grid) (bg_hints : List Hint) (t : ℚ)
    (hw : 1 ≤ g.width) (hh : 1 ≤ g.height) (p : ℤ × ℤ) :
    ((cleanGrid g bg_hints t).pix p.1 p.2 ≠ g.pix p.1 p.2 →
      borderSeedReach g t p ∧ (cleanGrid g bg_hints t).pix p.1 p.2 = transparentPixel) ∧
    (¬ borderSeedReach g t p →
      (cleanGrid g bg_hints t).pix p.1 p.2 = g.pix p.1 p.2) := by
  obtain ⟨s', hloop, hs', hsome⟩ := clean_image_inv g bg_hints t hw hh
  have hcg : cleanGrid g bg_hints t = s'.grid := by
    unfold cleanGrid
    rw [hsome]
    rfl
  rw [hcg]
  constructor
  · intro hne
    by_cases hmem : p ∈ s'.to_clear
    · exact ⟨(hs'.cleared p hmem).2, (hs'.cleared p hmem).1⟩
    · exact absurd (hs'.unchanged p hmem) hne
  · intro hnr
    by_cases hmem : p ∈ s'.to_clear
    · exact absurd (hs'.cleared p hmem).2 hnr
    · exact hs'.unchanged p hmem

/-- Witness for C1 (amended): the white pixel `(0,0)` of the 2x1
white/black image is changed by the run, hence reachable from a border
seed and blanked. -/
theorem clean_image_region_witness :
    borderSeedReach gridWB 30 (0, 0) ∧
      (cleanGrid gridWB [] 30).pix 0 0 = transparentPixel :=
  (clean_image_region gridWB [] 30 (by decide) (by decide) (0, 0)).1 (by decide)

/-- C5 (amended): whenever `clean_image` modifies a pixel at all, it
writes the whole quadruple `(0, 0, 0, 0)` — the colour channels are
zeroed along with the alpha channel, not preserved. -/
theorem clean_image_clears_whole_pixel (g : Grid) (bg_hints : List Hint) (t : ℚ)
    (hw : 1 ≤ g.width) (hh : 1 ≤ g.height) (p : ℤ × ℤ)
    (hne : (cleanGrid g bg_hints t).pix p.1 p.2 ≠ g.pix p.1 p.2) :
    (cleanGrid g bg_hints t).pix p.1 p.2 = transparentPixel := by
  obtain ⟨s', hloop, hs', hsome⟩ := clean_image_inv g bg_hints t hw hh
  have hcg : cleanGrid g bg_hints t = s'.grid := by
    unfold cleanGrid
    rw [hsome]
    rfl
  rw [hcg] at hne ⊢
  by_cases hmem : p ∈ s'.to_clear
  · exact (hs'.cleared p hmem).1
  · exact absurd (hs'.unchanged p hmem) hne

/-- Witness for C5 (amended): the cleared white 1x1 pixel ends as the full
quadruple `(0,0,0,0)`. -/
theorem clean_image_clears_whole_pixel_witness :
    (cleanGrid gridW1 [] 0).pix 0 0 = transparentPixel :=
  clean_image_clears_whole_pixel gridW1 [] 0 (by decide) (by decide) (0, 0) (by decide)

/-- C3 (amended): the reported cleared count dominates the number of
pixels whose alpha actually transitioned from non-zero to zero — every
transitioned pixel is in `to_clear`, but `to_clear` may additionally count
reached within-tolerance pixels whose alpha was already 0. -/
theorem cleared_count_ge_alphaTransitions (g : Grid) (bg_hints : List Hint)
    (t : ℚ) (hw : 1 ≤ g.width) (hh : 1 ≤ g.height) :
    alphaTransitions g (cleanGrid g bg_hints t) ≤ clearedCount g bg_hints t := by
  obtain ⟨s', hloop, hs', hsome⟩ := clean_image_inv g bg_hints t hw hh
  have hcg : cleanGrid g bg_hints t = s'.grid := by
    unfold cleanGrid
    rw [hsome]
    rfl
  have hcc : clearedCount g bg_hints t = s'.to_clear.card := by
    unfold clearedCount
    rw [hsome]
    rfl
  rw [hcg, hcc]
  unfold alphaTransitions
  refine Finset.card_le_card ?_
  intro r hr
  rw [Finset.mem_filter] at hr
  by_contra hrn
  have hun := hs'.unchanged r hrn
  have h2 := hr.2.2
  rw [hun] at h2
  exact hr.2.1 h2

/-- Witness for C3 (amended): on the 1x2 white/transparent image the
transition count 1 is at most the reported count 2. -/
theorem cleared_count_ge_alphaTransitions_witness :
    alphaTransitions gridWT (cleanGrid gridWT [] 30) ≤ clearedCount gridWT [] 30 :=
  cleared_count_ge_alphaTransitions gridWT [] 30 (by decide) (by decide)

/-- If every border coordinate of the current image has alpha 0, the whole
seed loop is a no-op: each seed is skipped by the transparency check. -/
theorem cleanLoop_noop (g : Grid) (bg_hints : List Hint) (t : ℚ) :
    ∀ bs : List (ℤ × ℤ), (∀ b ∈ bs, g.inBounds b) →
      (∀ b ∈ bs, (g.pix b.1 b.2).a = 0) →
      ∀ s : CState, s.grid = g → cleanLoop bg_hints t bs s = some s := by
  intro bs
  induction bs with
  | nil =>
    intro _ _ s _
    rfl
  | cons b bs ih =>
    intro hin h0 s hsg
    have hin2 : ∀ r ∈ bs, g.inBounds r := fun r hr => hin r (List.mem_cons_of_mem _ hr)
    have h02 : ∀ r ∈ bs, (g.pix r.1 r.2).a = 0 := fun r hr => h0 r (List.mem_cons_of_mem _ hr)
    by_cases hv : b ∈ s.visited
    · simp only [cleanLoop, seedStep_visited hv]
      exact ih hin2 h02 s hsg
    · have hget : s.grid.get? b.1 b.2 = some (g.pix b.1 b.2) := by
        rw [hsg]
        exact Grid.get_eq_of_inBounds (hin b (List.mem_cons_self _ _))
      have hstep : seedStep bg_hints t s b = some s :=
        seedStep_alpha0 hv hget (h0 b (List.mem_cons_self _ _))
      simp only [cleanLoop, hstep]
      exact ih hin2 h02 s hsg

/-- C4 (amended): rerunning `clean_image` with identical arguments on the
output of a first run is a no-op — no pixel changes and zero pixels are
reported — provided the first run left every border pixel with alpha 0
(for example, when it cleared all non-transparent border pixels).  Without
that proviso idempotence fails: a border pixel that the first run visited
but did not clear becomes a fresh seed in the second run (see the
counterexample). -/
theorem clean_image_second_run (g : Grid) (bg_hints : List Hint) (t : ℚ)
    (hw : 1 ≤ g.width) (hh : 1 ≤ g.height)
    (hb : ∀ b ∈ borderPixels g.width g.height,
      ((cleanGrid g bg_hints t).pix b.1 b.2).a = 0) :
    clean_image (cleanGrid g bg_hints t) bg_hints t =
      some (cleanGrid g bg_hints t, 0) := by
  obtain ⟨s', hloop, hs', hsome⟩ := clean_image_inv g bg_hints t hw hh
  have hcg : cleanGrid g bg_hints t = s'.grid := by
    unfold cleanGrid
    rw [hsome]
    rfl
  have hwd : (cleanGrid g bg_hints t).width = g.width := by rw [hcg]; exact hs'.wEq
  have hhd : (cleanGrid g bg_hints t).height = g.height := by rw [hcg]; exact hs'.hEq
  unfold clean_image
  rw [hwd, hhd,
    cleanLoop_noop (cleanGrid g bg_hints t) bg_hints t
      (borderPixels g.width g.height)
      (fun b hbm => by
        have hbin := mem_borderPixels_inBounds hw hh hbm
        unfold Grid.inBounds
        rw [hwd, hhd]
        exact hbin)
      hb
      ⟨cleanGrid g bg_hints t, ∅, ∅⟩ rfl]
  rfl

/-- Witness for C4 (amended): the first run on the 1x1 white image clears
its only (border) pixel, so the second run is a proven no-op reporting 0. -/
theorem clean_image_second_run_witness :
    clean_image (cleanGrid gridW1 [] 0) [] 0 = some (cleanGrid gridW1 [] 0, 0) :=
  clean_image_second_run gridW1 [] 0 (by decide) (by decide) (by decide)
